import Mathlib

/-!
Verification of the SpACE data-clustering core (`space_data_ops.py`).

This file gives a shallow embedding of the ingestion-and-alignment pipeline
of the SpACE repository and proves or refutes the frozen claims about it.

Conventions of the embedding:

* A raw input file is a list of lines (`List String`); the path travels
  alongside as a plain `String`.
* `pd.read_csv(item, sep=":", header=None, names=columns)` becomes
  `readCsv`: each line is split on `:` into at most five fields
  (descriptor, value, overflow, overflow2, overflow3); empty fields become
  `none` (pandas turns empty CSV fields into NaN) and blank lines are
  skipped (`skip_blank_lines` default).  A line with more than five fields
  makes pandas raise a `ParserError`; `readCsv` returns `none` there.
  The `quotechar` handling of `read_csv` is not modelled; no claim
  involves quoted fields.
* Python floats are modelled as exact rationals (`ℚ`).  The numeric
  pipeline claims never depend on rounding; comparisons and the min-max
  rescaling formula are exact in both worlds on the inputs considered.
* Uncaught Python exceptions (IndexError from `.index[0]` on an empty
  selection, KeyError from `.loc` with a label that is absent, TypeError
  from concatenating NaN with a string, pandas ParserError) are modelled
  as an explicit `crash` outcome, distinct from the error results the
  function returns on purpose.
* String helpers (`split`, substring membership, `float()` parseability)
  are written here by structural recursion over the character list so
  that every concrete run of the model can be checked by `decide`.
  `isFloat` follows the grammar accepted by Python `float()` on ASCII
  tokens exactly: optional surrounding whitespace (the six ASCII
  characters `str.strip` removes), optional sign, digit groups with
  single underscores between digits, optional fraction and exponent, or
  the keywords inf/infinity/nan, case insensitive.  Python additionally
  accepts non-ASCII decimal digits and whitespace; those are outside the
  model, and the one theorem whose truth depends on a token being
  rejected carries an explicit all-ASCII hypothesis on that token.
* The numeric pipeline is modelled twice where it matters: the rational
  model reads the arithmetic exactly, and a binary64 model (`F64`, with
  round-to-nearest-even integer arithmetic) reproduces the double
  precision of the `MinMaxScaler` computation, where exactness claims
  can genuinely fail.
-/

namespace SpACE

/-! ## String helpers (models of the Python primitives used by the source) -/

/-- Model of Python `value.split(sep)` for a one-character separator,
    over character lists: contiguous separators yield empty chunks,
    exactly as in Python. -/
def splitCharAux (sep : Char) : List Char → List Char → List (List Char)
  | [], acc => [acc.reverse]
  | c :: rest, acc =>
    if c = sep then acc.reverse :: splitCharAux sep rest []
    else splitCharAux sep rest (c :: acc)

/-- Model of Python `s.split(sep)` for a one-character separator. -/
def splitChar (sep : Char) (s : String) : List String :=
  (splitCharAux sep s.toList []).map (fun cs => String.mk cs)

/-- Model of Python `c in s` for a single character `c`. -/
def strHasChar (s : String) (c : Char) : Bool :=
  s.toList.any (fun x => x = c)

/-- Whether `pat` occurs as a prefix of `l`. -/
def listIsPrefixOf : List Char → List Char → Bool
  | [], _ => true
  | _ :: _, [] => false
  | p :: ps, c :: cs => p = c && listIsPrefixOf ps cs

/-- Whether `pat` occurs as a contiguous sublist of `l`. -/
def listHasSub (pat : List Char) : List Char → Bool
  | [] => listIsPrefixOf pat []
  | c :: cs => listIsPrefixOf pat (c :: cs) || listHasSub pat cs

/-- Model of Python `pat in s` (substring containment). -/
def strHasSub (s pat : String) : Bool :=
  listHasSub pat.toList s.toList

/-- The six ASCII characters Python `str.strip()` removes (`float()`
    strips them before parsing). -/
def isPySpace (c : Char) : Bool :=
  c = ' ' || c = '\t' || c = '\n' || c = '\r' || c = '\x0b' || c = '\x0c'

/-- Consume the tail of a Python `digitpart` after its first digit:
    further digits, with single underscores allowed only between two
    digits.  A trailing or doubled underscore is left unconsumed (and
    then rejects the token). -/
def digitTail : List Char → List Char
  | [] => []
  | c :: rest =>
    if c.isDigit then digitTail rest
    else if c = '_' then
      match rest with
      | [] => [c]
      | d :: rest2 => if d.isDigit then digitTail rest2 else c :: d :: rest2
    else c :: rest

/-- Consume a Python `digitpart` (`digit (["_"] digit)*`); `none` when the
    input does not start with a digit. -/
def parseDigitPart : List Char → Option (List Char)
  | c :: rest => if c.isDigit then some (digitTail rest) else none
  | [] => none

/-- Exponent part of a float literal: `(e|E) [sign] digitpart`, nothing
    after. -/
def isExpPart : List Char → Bool
  | 'e' :: rest => isSignedDigits rest
  | 'E' :: rest => isSignedDigits rest
  | _ => false
where
  isSignedDigits : List Char → Bool
  | '+' :: rest => isDigitsOnly rest
  | '-' :: rest => isDigitsOnly rest
  | rest => isDigitsOnly rest
  isDigitsOnly (cs : List Char) : Bool :=
    match parseDigitPart cs with
    | some [] => true
    | _ => false

/-- Decimal part of a float literal: `digitpart ["." [digitpart]]` or
    `"." digitpart`, optionally followed by an exponent. -/
def isDecimal (cs : List Char) : Bool :=
  match parseDigitPart cs with
  | some r1 =>
    match r1 with
    | [] => true
    | '.' :: r2 =>
      (match parseDigitPart r2 with
       | some r3 => r3.isEmpty || isExpPart r3
       | none => r2.isEmpty || isExpPart r2)
    | r => isExpPart r
  | none =>
    match cs with
    | '.' :: r2 =>
      (match parseDigitPart r2 with
       | some r3 => r3.isEmpty || isExpPart r3
       | none => false)
    | _ => false

/-- The keyword floats Python accepts: inf, infinity, nan (any case). -/
def isInfNan (cs : List Char) : Bool :=
  let low := cs.map Char.toLower
  low = "inf".toList || low = "infinity".toList || low = "nan".toList

/-- Model of Python `float(val)` succeeding, exact on ASCII tokens:
    strip surrounding whitespace, allow a sign, then a decimal literal
    (underscores between digits included) or an inf/nan keyword.
    Non-ASCII digits and whitespace, which Python also accepts, are not
    modelled. -/
def isFloat (s : String) : Bool :=
  let cs := s.toList.dropWhile isPySpace
  let cs := (cs.reverse.dropWhile isPySpace).reverse
  let cs := match cs with
            | '+' :: t => t
            | '-' :: t => t
            | t => t
  isInfNan cs || isDecimal cs

/-! ## `file_to_data_object` (src/space_data_ops.py, lines 55-142) -/

/-- One row of the frame produced by
    `pd.read_csv(item, sep=":", header=None, names=columns)`:
    the five named columns, `none` standing for NaN. -/
structure Row where
  descriptor : Option String
  value : Option String
  overflow : Option String
  overflow2 : Option String
  overflow3 : Option String
deriving DecidableEq, Repr

/-- A CSV field as pandas types it: the empty field becomes NaN. -/
def fieldOf (fields : List String) (i : ℕ) : Option String :=
  match fields[i]? with
  | some "" => none
  | some s => some s
  | none => none

/-- One line through `read_csv` with `sep=":"` and the five column names:
    more fields than columns make the python engine raise a ParserError,
    modelled as `none`. -/
def rowOfLine (line : String) : Option Row :=
  let fields := splitChar ':' line
  if fields.length > 5 then none
  else some ⟨fieldOf fields 0, fieldOf fields 1, fieldOf fields 2,
             fieldOf fields 3, fieldOf fields 4⟩

/-- The whole `read_csv` call: blank lines are skipped
    (`skip_blank_lines=True` default), each remaining line becomes a row;
    `none` models the ParserError on an overlong line. -/
def readCsv (lines : List String) : Option (List Row) :=
  (lines.filter (fun l => l ≠ "")).mapM rowOfLine

/-- Model of `first_col[first_col == s].index[0]` when it succeeds:
    position of the first row whose descriptor equals `s`
    (NaN compares unequal to every string, as in pandas). -/
def idxOfDescriptor (rows : List Row) (s : String) : Option ℕ :=
  rows.findIdx? (fun r => r.descriptor == some s)

/-- The tab test of the source:
    `"\t" in value and len(value.split("\t")) == 2`. -/
def isPairCandidate (v : String) : Bool :=
  strHasChar v '\t' && (splitChar '\t' v).length == 2

/-- A line that passes the full numeric-pair test: one tab, two tokens,
    both accepted by `float()`. -/
def numericPairTest (v : String) : Bool :=
  isPairCandidate v && (splitChar '\t' v).all isFloat

/-- Error message of line 80 of the source:
    `f"{item} contains an invalid or missing value at numerical pair: {value}"`. -/
def malformedMsg (path line : String) : String :=
  path ++ " contains an invalid or missing value at numerical pair: " ++ line

/-- Error message of line 100 of the source (its wording reproduced
    verbatim, including the missing "be"):
    `f"Numerical coordinate pairs could not found for {item}"`. -/
def missingMsg (path : String) : String :=
  "Numerical coordinate pairs could not found for " ++ path

/-- Result of the scanning loop over `first_col` (lines 72-86). -/
inductive ScanRes where
  | malformed : String → ScanRes
  | crash : ScanRes
  | done : List (List String) → ℕ → ℕ → ScanRes
deriving DecidableEq, Repr

/-- The loop `for value in first_col` of lines 72-86, carried out over the
    remaining rows; `rows` is the full column for the `.index[0]` lookups.
    State: collected pairs, `pair_index`, `desc_index` (both start at 0).
    A NaN descriptor makes `"\t" in value` raise a TypeError (`crash`). -/
def scanGo (rows : List Row) : List Row → List (List String) → ℕ → ℕ → ScanRes
  | [], pairs, pair_index, desc_index => .done pairs pair_index desc_index
  | r :: rest, pairs, pair_index, desc_index =>
    match r.descriptor with
    | none => .crash
    | some v =>
      if isPairCandidate v then
        if (splitChar '\t' v).all isFloat then
          match idxOfDescriptor rows v with
          | none => .crash
          | some j =>
            scanGo rows rest (pairs ++ [splitChar '\t' v])
              (if pair_index == 0 then j else pair_index) desc_index
        else .malformed v
      else if strHasSub v "Description" then
        match idxOfDescriptor rows "Description" with
        | none => .crash
        | some d => scanGo rows rest pairs pair_index d
      else scanGo rows rest pairs pair_index desc_index

/-- The full scan, starting from empty pairs and both indices 0. -/
def scanRows (rows : List Row) : ScanRes :=
  scanGo rows rows [] 0 0

/-- The parsed view of one input file, the data carried into
    `DataObject(descriptive_data, xy_pairs, item)`: the descriptor/value
    cells of the descriptive frame (column drops never alter a surviving
    cell, but `dropna(axis=1)` in the first description branch can remove
    the whole value column — see `dropnaCols`; overflow columns are not
    tracked in the record model), the two unit labels naming the numeric
    columns, the raw token pairs, and the file path.  The numeric claims
    are stated over the rational-valued `DataObject` model below; here
    the tokens stay strings, as `astype(float)` only converts values
    already vetted by the scan. -/
structure ParsedRecord where
  descriptive : List (Option String × Option String)
  xcol : Option String
  ycol : Option String
  xy_pairs : List (List String)
  filename : String
deriving DecidableEq, Repr

/-- Descriptor/value cells of one row. -/
def toPair (r : Row) : Option String × Option String :=
  (r.descriptor, r.value)

/-- Outcome of parsing one file. -/
inductive ParseOutcome where
  | ok : ParsedRecord → ParseOutcome
  | err : String → ParseOutcome
  | crash : ParseOutcome
deriving DecidableEq, Repr

/-- The merging branches 2-4 of lines 112-130 (the overflow field is
    present): `none` = the TypeError raised when the value cell is NaN
    and the code concatenates it with a string; otherwise the new value.
    The chain is checked top to bottom exactly as the `elif` ladder of
    the source does. -/
def mergeOverflow (value : Option String) (o1 : String)
    (o2 o3 : Option String) : Option String :=
  match value with
  | none => none
  | some v =>
    match o2 with
    | none => some (v ++ ": " ++ o1)
    | some e2 =>
      match o3 with
      | none => some (v ++ ": " ++ o1 ++ ": " ++ e2)
      | some e3 => some (v ++ ": " ++ o1 ++ ": " ++ e2 ++ ": " ++ e3)

/-- Branch 1 of the description processing (line 109,
    `descriptive_data.dropna(axis=1)`): pandas drops every column that
    holds a NaN anywhere in the head frame.  The descriptor column always
    survives here (a NaN descriptor crashes the scan before this point),
    but the value column is dropped whole whenever some head line has no
    colon — every value cell is then gone, modelled as `none` for every
    row.  Overflow columns with a NaN are dropped likewise; fully
    populated overflow columns would survive in pandas, but the record
    model keeps only the descriptor and value cells, which no claim about
    surviving overflow columns contradicts. -/
def dropnaCols (head : List Row) : List (Option String × Option String) :=
  if head.all (fun r => r.value.isSome) then head.map toPair
  else head.map (fun r => (r.descriptor, none))

/-- Lines 89-140 after the scan: build the record (or fail).  `.loc` with
    a label not present in the head frame raises a KeyError (`crash`);
    `.index[0]` on an empty selection raises an IndexError (`crash`). -/
def buildRecord (path : String) (rows : List Row) (pairs : List (List String))
    (pair_index desc_index : ℕ) : ParseOutcome :=
  if pair_index ≠ 0 then
    let head := rows.take pair_index
    match idxOfDescriptor rows "X Units" with
    | none => .crash
    | some xi =>
      match idxOfDescriptor rows "Y Units" with
      | none => .crash
      | some yi =>
        match head[xi]? with
        | none => .crash
        | some xrow =>
          match head[yi]? with
          | none => .crash
          | some yrow =>
            match head[desc_index]? with
            | none => .crash
            | some drow =>
              match drow.overflow with
              | none =>
                .ok ⟨dropnaCols head, xrow.value, yrow.value, pairs, path⟩
              | some o1 =>
                match mergeOverflow drow.value o1 drow.overflow2 drow.overflow3 with
                | none => .crash
                | some mv =>
                  .ok ⟨(head.map toPair).set desc_index (drow.descriptor, some mv),
                       xrow.value, yrow.value, pairs, path⟩
  else .err (missingMsg path)

/-- Parse the rows of one file. -/
def parseRows (path : String) (rows : List Row) : ParseOutcome :=
  match scanRows rows with
  | .malformed v => .err (malformedMsg path v)
  | .crash => .crash
  | .done pairs pair_index desc_index =>
    buildRecord path rows pairs pair_index desc_index

/-- Parse one file given as its raw lines. -/
def parseFile (path : String) (lines : List String) : ParseOutcome :=
  match readCsv lines with
  | none => .crash
  | some rows => parseRows path rows

/-- Result of `file_to_data_object` over a file list: `ok` is the
    `(DataObjects, "")` success, `err m` is the `([], m)` early return
    with the empty collection, `crash` an uncaught exception. -/
inductive BatchResult where
  | ok : List ParsedRecord → BatchResult
  | err : String → BatchResult
  | crash : BatchResult
deriving DecidableEq, Repr

/-- The `for item in file_list` loop: first failure returns `([], msg)`
    and discards everything parsed so far. -/
def fileLoop : List (String × List String) → List ParsedRecord → BatchResult
  | [], acc => .ok acc
  | (path, lines) :: rest, acc =>
    match parseFile path lines with
    | .ok r => fileLoop rest (acc ++ [r])
    | .err m => .err m
    | .crash => .crash

/-- `file_to_data_object(file_list)` with each file given as
    `(path, lines)`. -/
def file_to_data_object (file_list : List (String × List String)) : BatchResult :=
  fileLoop file_list []

/-! ## The numeric pipeline (lines 146-293)

A `DataObject` past `reindex` carries one `pairs` frame keyed by the
wavelength: we model it as the list of (key, value) rows, both exact
rationals.  The spec calls this entity `SpectralRecord`; the container
class `DataObject` itself lives in `DataObject.py` outside the analysed
sources, but every operation on it is in `space_data_ops.py`. -/

structure DataObject where
  pairs : List (ℚ × ℚ)
deriving DecidableEq, Repr

/-- `index.min()` of a frame: `none` is the NaN produced on an empty
    index. -/
def keyMin : List ℚ → Option ℚ
  | [] => none
  | k :: rest => some (rest.foldl min k)

/-- `index.max()` of a frame, `none` for the empty NaN. -/
def keyMax : List ℚ → Option ℚ
  | [] => none
  | k :: rest => some (rest.foldl max k)

/-- A comparison against NaN is false in pandas; `none` plays NaN. -/
def optLt : Option ℚ → Option ℚ → Bool
  | some a, some b => decide (a < b)
  | _, _ => false

/-- Strict greater-than with the same NaN convention. -/
def optGt : Option ℚ → Option ℚ → Bool
  | some a, some b => decide (b < a)
  | _, _ => false

/-- The keys of a `pairs` frame (its index after `reindex`). -/
def keysOf (dobj : DataObject) : List ℚ :=
  dobj.pairs.map Prod.fst

/-- `find_common_range(data_objects)` (lines 167-187).  The outer `none`
    models the IndexError `data_objects[0]` raises on an empty list;
    otherwise the pair `(highest_minimum, lowest_maximum)` of the source
    with `(None, None)` for no overlap. -/
def find_common_range (data_objects : List DataObject) : Option (Option ℚ × Option ℚ) :=
  match data_objects with
  | [] => none
  | first :: rest =>
    let st := rest.foldl
      (fun (st : Option ℚ × Option ℚ) dobj =>
        (if optGt (keyMin (keysOf dobj)) st.1 then keyMin (keysOf dobj) else st.1,
         if optLt (keyMax (keysOf dobj)) st.2 then keyMax (keysOf dobj) else st.2))
      (keyMin (keysOf first), keyMax (keysOf first))
    some (if optLt st.1 st.2 then (st.1, st.2) else (none, none))

/-- Insert one row into a list of rows already sorted by key, keeping it
    sorted by key. -/
def insertByKey (p : ℚ × ℚ) : List (ℚ × ℚ) → List (ℚ × ℚ)
  | [] => [p]
  | q :: rest => if q.1 < p.1 then q :: insertByKey p rest else p :: q :: rest

/-- Sort rows by key (a stable insertion sort; `sort_index` promises a
    key-sorted frame holding the same rows, which is all the claims use). -/
def sortByKey : List (ℚ × ℚ) → List (ℚ × ℚ)
  | [] => []
  | p :: rest => insertByKey p (sortByKey rest)

/-- `reindex(data_objects)` (lines 146-163): renaming the first column and
    making it the index are purely structural (the key is the first
    component here throughout); `sort_index` sorts the rows by key. -/
def reindex (data_objects : List DataObject) : List DataObject :=
  data_objects.map (fun dobj => ⟨sortByKey dobj.pairs⟩)

/-- Is a list of keys monotonically non-decreasing
    (`is_monotonic_increasing`)? -/
def monoAsc : List ℚ → Bool
  | [] => true
  | [_] => true
  | a :: b :: rest => decide (a ≤ b) && monoAsc (b :: rest)

/-- `original_dataframe.truncate(before=min, after=max, axis='index')`
    on one frame.  pandas raises unless before ≤ after and the index is
    monotonic (`none` models the ValueError; the descending-index variant
    is not modelled — every claim concerns ascending series); on an
    ascending index it keeps exactly the rows with key in [min, max],
    slicing off a prefix of smaller and a suffix of larger keys. -/
def truncateDF (df : List (ℚ × ℚ)) (min max : ℚ) : Option (List (ℚ × ℚ)) :=
  if monoAsc (df.map Prod.fst) then
    if min ≤ max then
      some ((df.dropWhile (fun p => decide (p.1 < min))).takeWhile
              (fun p => decide (p.1 ≤ max)))
    else none
  else none

/-- `truncate(data_objects, min, max)` (lines 191-206), over the whole
    collection; `none` if pandas raises on any record. -/
def truncate (data_objects : List DataObject) (min max : ℚ) :
    Option (List DataObject) :=
  data_objects.mapM (fun dobj =>
    (truncateDF dobj.pairs min max).map (fun t => (⟨t⟩ : DataObject)))

/-- Insert a key into a sorted key list. -/
def insertKey (k : ℚ) : List ℚ → List ℚ
  | [] => [k]
  | x :: rest => if x < k then x :: insertKey k rest else k :: x :: rest

/-- Sort a key list ascending. -/
def sortKeys : List ℚ → List ℚ
  | [] => []
  | k :: rest => insertKey k (sortKeys rest)

/-- Collapse adjacent duplicates of a sorted key list. -/
def dedupAdj : List ℚ → List ℚ
  | [] => []
  | [a] => [a]
  | a :: b :: rest => if a = b then dedupAdj (b :: rest) else a :: dedupAdj (b :: rest)

/-- `Index.union` of two (duplicate-free) indexes: the sorted union. -/
def indexUnion (k1 k2 : List ℚ) : List ℚ :=
  dedupAdj (sortKeys (k1 ++ k2))

/-- Value at a key of a keyed frame, `none` when the key is absent (a NaN
    cell after reindexing). -/
def lookupKey (df : List (ℚ × ℚ)) (k : ℚ) : Option ℚ :=
  (df.find? (fun p => p.1 == k)).map Prod.snd

/-- Value at a key of a frame that may already hold NaN cells. -/
def lookupKeyOpt (df : List (ℚ × Option ℚ)) (k : ℚ) : Option ℚ :=
  match df.find? (fun p => p.1 == k) with
  | some p => p.2
  | none => none

/-- `alignment_pairs.align(dobj.pairs, join="outer", axis=0)`, second
    component: `dobj.pairs` reindexed onto the sorted union of the two
    indexes, with NaN at the keys it lacks. -/
def outerAlign (ref : List (ℚ × ℚ)) (df : List (ℚ × ℚ)) : List (ℚ × Option ℚ) :=
  (indexUnion (ref.map Prod.fst) (df.map Prod.fst)).map
    (fun k => (k, lookupKey df k))

/-- The positions holding known values, with those values. -/
def knownCells (df : List (ℚ × Option ℚ)) : List (ℕ × ℚ) :=
  (df.enum.filterMap (fun pc =>
    match pc.2.2 with
    | some v => some (pc.1, v)
    | none => none))

/-- `interpolate(limit_direction='both')` at one position: the linear
    method interpolates by position (it ignores the index), and with both
    limit directions the cells before the first known value take that
    first value and the cells after the last take the last. -/
def interpAt (knowns : List (ℕ × ℚ)) (p : ℕ) : Option ℚ :=
  match (knowns.filter (fun c => decide (c.1 ≤ p))).getLast?,
        knowns.find? (fun c => decide (p ≤ c.1)) with
  | some l, some u =>
    if l.1 = u.1 then some l.2
    else some (l.2 + (u.2 - l.2) * ((p : ℚ) - (l.1 : ℚ)) / ((u.1 : ℚ) - (l.1 : ℚ)))
  | some l, none => some l.2
  | none, some u => some u.2
  | none, none => none

/-- `dobj.pairs.interpolate(limit_direction='both')`: every cell becomes
    the interpolation at its position (a known cell interpolates to
    itself); a frame with no known value at all stays all-NaN. -/
def interpolateBoth (df : List (ℚ × Option ℚ)) : List (ℚ × Option ℚ) :=
  df.enum.map (fun pc => (pc.2.1, interpAt (knownCells df) pc.1))

/-- `alignment_pairs.align(dobj.pairs, join="left", axis=0)`, second
    component: the frame reindexed onto the reference index, in the
    reference's order. -/
def leftAlign (ref : List (ℚ × ℚ)) (df : List (ℚ × Option ℚ)) :
    List (ℚ × Option ℚ) :=
  ref.map (fun p => (p.1, lookupKeyOpt df p.1))

/-- A record after `align`: its cells may be NaN when a record with no
    known values was aligned. -/
structure AlignedObject where
  pairs : List (ℚ × Option ℚ)
deriving DecidableEq, Repr

/-- `align(data_objects, align_to)` (lines 227-241).  `alignment_pairs`
    is bound to the reference frame before the loop, and rebinding
    `dobj.pairs` inside the loop never mutates that frame, so every
    record — the reference itself included — is aligned to the
    reference's original index.  The model is faithful for the inputs on
    which pandas `align` returns (duplicate-free indexes, `align_to` in
    range); the claim theorems carry those hypotheses. -/
def align (data_objects : List DataObject) (align_to : ℕ) : List AlignedObject :=
  let alignment_pairs := (data_objects.getD align_to ⟨[]⟩).pairs
  data_objects.map (fun dobj =>
    ⟨leftAlign alignment_pairs (interpolateBoth (outerAlign alignment_pairs dobj.pairs))⟩)

/-- `linear_normalize(data_objects)` (lines 281-293), read in exact
    arithmetic.  `MinMaxScaler` with the default feature range fits
    `scale_ = 1 / (data_max_ - data_min_)` (with a zero range replaced by
    1, `_handle_zeros_in_scale`) and `min_ = 0 - data_min_ * scale_`,
    then maps every cell `v` of the one value column to
    `v * scale_ + min_`; the column swap of lines 290-292 leaves the
    result as the record's value column, keys untouched.  `MinMaxScaler`
    raises on an empty frame; that unreachable arm keeps the record
    unchanged (the claim hypotheses rule it out).  This rational model
    states what the computation means exactly; the double-precision
    evaluation the program actually performs is modelled separately by
    `linear_normalize_float` below, where the exactness of the endpoint
    images can fail. -/
def linear_normalize (data_objects : List DataObject) : List DataObject :=
  data_objects.map (fun dobj =>
    match keyMin (dobj.pairs.map Prod.snd), keyMax (dobj.pairs.map Prod.snd) with
    | some data_min, some data_max =>
      let scale : ℚ := if data_max - data_min = 0 then 1 else 1 / (data_max - data_min)
      let min_adj : ℚ := 0 - data_min * scale
      ⟨dobj.pairs.map (fun p => (p.1, p.2 * scale + min_adj))⟩
    | _, _ => dobj)

/-! ## IEEE binary64 model of the MinMaxScaler arithmetic

`MinMaxScaler` works on numpy float64 values.  To settle the exactness
part of the min-max claim against the program rather than against exact
arithmetic, the four operations it performs (subtract, divide, multiply,
add) are modelled here as correctly rounded binary64 operations:
round-to-nearest, ties to even, on a 53-bit significand, over integer
mantissa/exponent pairs so that every concrete run reduces in the
kernel.  Overflow, subnormals and NaN are outside the model: every value
in the runs considered is a modest normal number.  Representations are
not canonical (`m * 2^e` may carry a trailing zero); equality of values,
where needed, goes through `f64Val`. -/

/-- A binary64 value `m * 2^e` (after rounding, `|m| < 2^54`). -/
structure F64 where
  m : ℤ
  e : ℤ
deriving DecidableEq, Repr

/-- The rational value of a float. -/
def f64Val (x : F64) : ℚ :=
  (x.m : ℚ) * (2 : ℚ) ^ x.e

/-- Bit length of a natural number (fuel-bounded recursion so that the
    kernel can evaluate it; 200 bits covers every magnitude these runs
    produce). -/
def bitLenAux : ℕ → ℕ → ℕ
  | 0, _ => 0
  | fuel + 1, n => if n = 0 then 0 else bitLenAux fuel (n / 2) + 1

/-- Bit length: 0 for 0, otherwise the position of the leading bit plus
    one. -/
def bitLen (n : ℕ) : ℕ :=
  bitLenAux 200 n

/-- Round a positive mantissa to 53 bits, nearest, ties to even. -/
def roundPos (m : ℕ) (e : ℤ) : F64 :=
  let bl := bitLen m
  if bl ≤ 53 then ⟨(m : ℤ), e⟩
  else
    let k := bl - 53
    let q := m / 2 ^ k
    let r := m % 2 ^ k
    let half := 2 ^ (k - 1)
    let q' := if r > half then q + 1
              else if r < half then q
              else if q % 2 = 0 then q else q + 1
    ⟨(q' : ℤ), e + k⟩

/-- Round an exact dyadic `m * 2^e` to binary64. -/
def roundF (m : ℤ) (e : ℤ) : F64 :=
  if m = 0 then ⟨0, 0⟩
  else if 0 < m then roundPos m.toNat e
  else
    let r := roundPos (-m).toNat e
    ⟨-r.m, r.e⟩

/-- Float multiplication: the exact product, rounded. -/
def fmul (a b : F64) : F64 :=
  roundF (a.m * b.m) (a.e + b.e)

/-- Float addition: align exponents, add exactly, round. -/
def fadd (a b : F64) : F64 :=
  if b.e ≤ a.e then roundF (a.m * 2 ^ (a.e - b.e).toNat + b.m) b.e
  else roundF (b.m * 2 ^ (b.e - a.e).toNat + a.m) a.e

/-- Float negation (exact). -/
def fneg (a : F64) : F64 :=
  ⟨-a.m, a.e⟩

/-- Float subtraction. -/
def fsub (a b : F64) : F64 :=
  fadd a (fneg b)

/-- Value comparison of two floats, by cross-scaled integer mantissas. -/
def fle (a b : F64) : Bool :=
  if b.e ≤ a.e then decide (a.m * 2 ^ (a.e - b.e).toNat ≤ b.m)
  else decide (a.m ≤ b.m * 2 ^ (b.e - a.e).toNat)

/-- Float division, correctly rounded: scale the dividend so the exact
    quotient has 54 or 55 bits before the point, divide with remainder,
    and round to 53 bits nearest-ties-to-even, the remainder acting as
    the sticky bit.  Division by zero (IEEE infinity) is not modelled;
    `_handle_zeros_in_scale` keeps the modelled runs away from it. -/
def fdiv (a b : F64) : F64 :=
  if a.m = 0 then ⟨0, 0⟩
  else
    let n := a.m.natAbs
    let d := b.m.natAbs
    let sgn : ℤ := if (decide (0 < a.m)) == (decide (0 < b.m)) then 1 else -1
    let T : ℤ := 54 + (bitLen d : ℤ) - (bitLen n : ℤ)
    let N := n * 2 ^ T.toNat
    let D := d * 2 ^ (-T).toNat
    let q := N / D
    let r := N % D
    let k := bitLen q - 53
    let qq := q / 2 ^ k
    let rr := q % 2 ^ k
    let half := 2 ^ (k - 1)
    let q' := if rr > half then qq + 1
              else if rr < half then qq
              else if r > 0 then qq + 1
              else if qq % 2 = 0 then qq else qq + 1
    ⟨sgn * (q' : ℤ), a.e - b.e - T + k⟩

/-- A record whose values are binary64 floats (keys are untouched by
    normalization and stay exact). -/
structure DataObjectF where
  pairs : List (ℚ × F64)
deriving DecidableEq, Repr

/-- `X.min(axis=0)` over float values. -/
def keyMinF : List F64 → Option F64
  | [] => none
  | k :: rest => some (rest.foldl (fun acc x => if fle x acc then x else acc) k)

/-- `X.max(axis=0)` over float values. -/
def keyMaxF : List F64 → Option F64
  | [] => none
  | k :: rest => some (rest.foldl (fun acc x => if fle acc x then x else acc) k)

/-- `linear_normalize` as the program computes it, in binary64:
    `data_range = data_max - data_min` (1 substituted for a zero range),
    `scale_ = 1 / data_range`, `min_ = 0 - data_min * scale_`, and every
    value `v` becomes `v * scale_ + min_`, each operation correctly
    rounded. -/
def linear_normalize_float (data_objects : List DataObjectF) : List DataObjectF :=
  data_objects.map (fun dobj =>
    match keyMinF (dobj.pairs.map Prod.snd), keyMaxF (dobj.pairs.map Prod.snd) with
    | some data_min, some data_max =>
      let data_range := fsub data_max data_min
      let data_range := if data_range.m = 0 then ⟨1, 0⟩ else data_range
      let scale := fdiv ⟨1, 0⟩ data_range
      let min_adj := fsub ⟨0, 0⟩ (fmul data_min scale)
      ⟨dobj.pairs.map (fun p => (p.1, fadd (fmul p.2 scale) min_adj))⟩
    | _, _ => dobj)

/-! ## Helper lemmas: list minima and maxima -/

lemma foldl_min_le_init (l : List ℚ) (a : ℚ) : l.foldl min a ≤ a := by
  induction l generalizing a with
  | nil => simp
  | cons b t ih =>
    simp only [List.foldl_cons]
    exact le_trans (ih (min a b)) (min_le_left a b)

lemma foldl_min_le_mem (l : List ℚ) (a : ℚ) : ∀ x ∈ l, l.foldl min a ≤ x := by
  induction l generalizing a with
  | nil => simp
  | cons b t ih =>
    intro x hx
    simp only [List.foldl_cons]
    rcases List.mem_cons.mp hx with rfl | hx
    · exact le_trans (foldl_min_le_init t (min a x)) (min_le_right a x)
    · exact ih (min a b) x hx

lemma foldl_min_choice (l : List ℚ) (a : ℚ) :
    l.foldl min a = a ∨ l.foldl min a ∈ l := by
  induction l generalizing a with
  | nil => simp
  | cons b t ih =>
    simp only [List.foldl_cons]
    rcases ih (min a b) with h | h
    · rcases min_cases a b with ⟨hm, _⟩ | ⟨hm, _⟩
      · exact Or.inl (h.trans hm)
      · exact Or.inr (by rw [h, hm]; exact List.mem_cons_self b t)
    · exact Or.inr (List.mem_cons_of_mem b h)

lemma foldl_max_init_le (l : List ℚ) (a : ℚ) : a ≤ l.foldl max a := by
  induction l generalizing a with
  | nil => simp
  | cons b t ih =>
    simp only [List.foldl_cons]
    exact le_trans (le_max_left a b) (ih (max a b))

lemma foldl_max_mem_le (l : List ℚ) (a : ℚ) : ∀ x ∈ l, x ≤ l.foldl max a := by
  induction l generalizing a with
  | nil => simp
  | cons b t ih =>
    intro x hx
    simp only [List.foldl_cons]
    rcases List.mem_cons.mp hx with rfl | hx
    · exact le_trans (le_max_right a x) (foldl_max_init_le t (max a x))
    · exact ih (max a b) x hx

lemma foldl_max_choice (l : List ℚ) (a : ℚ) :
    l.foldl max a = a ∨ l.foldl max a ∈ l := by
  induction l generalizing a with
  | nil => simp
  | cons b t ih =>
    simp only [List.foldl_cons]
    rcases ih (max a b) with h | h
    · rcases max_cases a b with ⟨hm, _⟩ | ⟨hm, _⟩
      · exact Or.inl (h.trans hm)
      · exact Or.inr (by rw [h, hm]; exact List.mem_cons_self b t)
    · exact Or.inr (List.mem_cons_of_mem b h)

/-- On a non-empty key list, `keyMin` yields a member below every member. -/
lemma keyMin_spec {l : List ℚ} (h : l ≠ []) :
    ∃ m, keyMin l = some m ∧ m ∈ l ∧ ∀ x ∈ l, m ≤ x := by
  match l, h with
  | k :: rest, _ =>
    refine ⟨rest.foldl min k, rfl, ?_, ?_⟩
    · rcases foldl_min_choice rest k with h | h
      · rw [h]; exact List.mem_cons_self k rest
      · exact List.mem_cons_of_mem k h
    · intro x hx
      rcases List.mem_cons.mp hx with rfl | hx
      · exact foldl_min_le_init rest x
      · exact foldl_min_le_mem rest k x hx

/-- On a non-empty key list, `keyMax` yields a member above every member. -/
lemma keyMax_spec {l : List ℚ} (h : l ≠ []) :
    ∃ m, keyMax l = some m ∧ m ∈ l ∧ ∀ x ∈ l, x ≤ m := by
  match l, h with
  | k :: rest, _ =>
    refine ⟨rest.foldl max k, rfl, ?_, ?_⟩
    · rcases foldl_max_choice rest k with h | h
      · rw [h]; exact List.mem_cons_self k rest
      · exact List.mem_cons_of_mem k h
    · intro x hx
      rcases List.mem_cons.mp hx with rfl | hx
      · exact foldl_max_init_le rest x
      · exact foldl_max_mem_le rest k x hx

/-- The loop of `find_common_range` over the remaining records: starting
    from a seen minimum `a` and maximum `b`, it ends at the running
    highest minimum and lowest maximum. -/
lemma fcr_fold (rest : List DataObject) (h2 : ∀ r ∈ rest, r.pairs ≠ []) (a b : ℚ) :
    ∃ A B,
      rest.foldl
        (fun (st : Option ℚ × Option ℚ) dobj =>
          (if optGt (keyMin (keysOf dobj)) st.1 then keyMin (keysOf dobj) else st.1,
           if optLt (keyMax (keysOf dobj)) st.2 then keyMax (keysOf dobj) else st.2))
        (some a, some b) = (some A, some B)
      ∧ (A = a ∨ ∃ r ∈ rest, keyMin (keysOf r) = some A)
      ∧ a ≤ A ∧ (∀ r ∈ rest, ∀ m, keyMin (keysOf r) = some m → m ≤ A)
      ∧ (B = b ∨ ∃ r ∈ rest, keyMax (keysOf r) = some B)
      ∧ B ≤ b ∧ (∀ r ∈ rest, ∀ m, keyMax (keysOf r) = some m → B ≤ m) := by
  induction rest generalizing a b with
  | nil =>
    exact ⟨a, b, rfl, Or.inl rfl, le_refl a, by simp, Or.inl rfl, le_refl b, by simp⟩
  | cons r t ih =>
    have hr : r.pairs ≠ [] := h2 r (List.mem_cons_self r t)
    have hkeys : keysOf r ≠ [] := by
      simpa [keysOf, List.map_eq_nil_iff] using hr
    obtain ⟨m, hm, _, _⟩ := keyMin_spec hkeys
    obtain ⟨M, hM, _, _⟩ := keyMax_spec hkeys
    have hstep :
        ((if optGt (keyMin (keysOf r)) (some a) then keyMin (keysOf r) else some a,
          if optLt (keyMax (keysOf r)) (some b) then keyMax (keysOf r) else some b)
          : Option ℚ × Option ℚ)
        = (some (if a < m then m else a), some (if M < b then M else b)) := by
      rw [hm, hM]
      by_cases hc1 : a < m <;> by_cases hc2 : M < b <;>
        simp [optGt, optLt, hc1, hc2]
    obtain ⟨A, B, hfold, hAc, haA, hAub, hBc, hBb, hBlb⟩ :=
      ih (fun r' hr' => h2 r' (List.mem_cons_of_mem r hr'))
        (if a < m then m else a) (if M < b then M else b)
    refine ⟨A, B, ?_, ?_, ?_, ?_, ?_, ?_, ?_⟩
    · rw [List.foldl_cons]
      show List.foldl _
        (if optGt (keyMin (keysOf r)) (some a) then keyMin (keysOf r) else some a,
         if optLt (keyMax (keysOf r)) (some b) then keyMax (keysOf r) else some b) t = _
      rw [hstep]
      exact hfold
    · rcases hAc with h | ⟨r', hr', h⟩
      · by_cases h1 : a < m
        · refine Or.inr ⟨r, List.mem_cons_self r t, ?_⟩
          rw [hm, h, if_pos h1]
        · exact Or.inl (by rw [h, if_neg h1])
      · exact Or.inr ⟨r', List.mem_cons_of_mem r hr', h⟩
    · refine le_trans ?_ haA
      by_cases h1 : a < m
      · rw [if_pos h1]; exact le_of_lt h1
      · rw [if_neg h1]
    · intro r' hr' m' hm'
      rcases List.mem_cons.mp hr' with rfl | hr'
      · have : m' = m := by rw [hm] at hm'; exact (Option.some_inj.mp hm').symm
        subst this
        refine le_trans ?_ haA
        by_cases hc1 : a < m'
        · rw [if_pos hc1]
        · rw [if_neg hc1]; exact le_of_not_lt hc1
      · exact hAub r' hr' m' hm'
    · rcases hBc with h | ⟨r', hr', h⟩
      · by_cases h2 : M < b
        · refine Or.inr ⟨r, List.mem_cons_self r t, ?_⟩
          rw [hM, h, if_pos h2]
        · exact Or.inl (by rw [h, if_neg h2])
      · exact Or.inr ⟨r', List.mem_cons_of_mem r hr', h⟩
    · refine le_trans hBb ?_
      by_cases h2 : M < b
      · rw [if_pos h2]; exact le_of_lt h2
      · rw [if_neg h2]
    · intro r' hr' m' hm'
      rcases List.mem_cons.mp hr' with rfl | hr'
      · have : m' = M := by rw [hM] at hm'; exact (Option.some_inj.mp hm').symm
        subst this
        refine le_trans hBb ?_
        by_cases hc2 : m' < b
        · rw [if_pos hc2]
        · rw [if_neg hc2]; exact le_of_not_lt hc2
      · exact hBlb r' hr' m' hm'

/-- C2: on a non-empty collection of (non-empty) records,
    `find_common_range` returns the highest minimum / lowest maximum pair
    when the former is strictly below the latter, and `(None, None)`
    otherwise (disjoint and touching ranges included), without crashing. -/
theorem c2_common_range_spec (objs : List DataObject) (hne : objs ≠ [])
    (hser : ∀ r ∈ objs, r.pairs ≠ []) :
    ∃ hm lm : ℚ,
      (∃ r ∈ objs, keyMin (keysOf r) = some hm) ∧
      (∀ r ∈ objs, ∀ m, keyMin (keysOf r) = some m → m ≤ hm) ∧
      (∃ r ∈ objs, keyMax (keysOf r) = some lm) ∧
      (∀ r ∈ objs, ∀ m, keyMax (keysOf r) = some m → lm ≤ m) ∧
      find_common_range objs =
        some (if hm < lm then (some hm, some lm) else (none, none)) := by
  match objs, hne with
  | first :: rest, _ =>
    have hfirst : first.pairs ≠ [] := hser first (List.mem_cons_self first rest)
    have hkeys : keysOf first ≠ [] := by
      simpa [keysOf, List.map_eq_nil_iff] using hfirst
    obtain ⟨m0, hm0, _, _⟩ := keyMin_spec hkeys
    obtain ⟨M0, hM0, _, _⟩ := keyMax_spec hkeys
    obtain ⟨A, B, hfold, hAc, haA, hAub, hBc, hBb, hBlb⟩ :=
      fcr_fold rest (fun r hr => hser r (List.mem_cons_of_mem first hr)) m0 M0
    refine ⟨A, B, ?_, ?_, ?_, ?_, ?_⟩
    · rcases hAc with h | ⟨r, hr, h⟩
      · exact ⟨first, List.mem_cons_self first rest, by rw [hm0, h]⟩
      · exact ⟨r, List.mem_cons_of_mem first hr, h⟩
    · intro r hr m hm
      rcases List.mem_cons.mp hr with rfl | hr
      · have : m = m0 := by rw [hm0] at hm; exact (Option.some_inj.mp hm).symm
        exact this ▸ haA
      · exact hAub r hr m hm
    · rcases hBc with h | ⟨r, hr, h⟩
      · exact ⟨first, List.mem_cons_self first rest, by rw [hM0, h]⟩
      · exact ⟨r, List.mem_cons_of_mem first hr, h⟩
    · intro r hr m hm
      rcases List.mem_cons.mp hr with rfl | hr
      · have : m = M0 := by rw [hM0] at hm; exact (Option.some_inj.mp hm).symm
        exact this ▸ hBb
      · exact hBlb r hr m hm
    · show find_common_range (first :: rest) = _
      rw [find_common_range, hm0, hM0, hfold]
      by_cases h : A < B <;> simp [optLt, h]

/-- Witness for C2 at the disjoint ranges [100, 200] and [250, 300]
    (Example 4 of the spec): the hypotheses hold and the theorem applies. -/
theorem c2_common_range_spec_witness :
    ∃ hm lm : ℚ,
      (∃ r ∈ [(⟨[(100, 0), (200, 0)]⟩ : DataObject), ⟨[(250, 0), (300, 0)]⟩],
        keyMin (keysOf r) = some hm) ∧
      (∀ r ∈ [(⟨[(100, 0), (200, 0)]⟩ : DataObject), ⟨[(250, 0), (300, 0)]⟩],
        ∀ m, keyMin (keysOf r) = some m → m ≤ hm) ∧
      (∃ r ∈ [(⟨[(100, 0), (200, 0)]⟩ : DataObject), ⟨[(250, 0), (300, 0)]⟩],
        keyMax (keysOf r) = some lm) ∧
      (∀ r ∈ [(⟨[(100, 0), (200, 0)]⟩ : DataObject), ⟨[(250, 0), (300, 0)]⟩],
        ∀ m, keyMax (keysOf r) = some m → lm ≤ m) ∧
      find_common_range [⟨[(100, 0), (200, 0)]⟩, ⟨[(250, 0), (300, 0)]⟩] =
        some (if hm < lm then (some hm, some lm) else (none, none)) :=
  c2_common_range_spec
    [⟨[(100, 0), (200, 0)]⟩, ⟨[(250, 0), (300, 0)]⟩]
    (by decide) (by decide)

/-- C1, as stated, is false: on records with coordinate ranges
    [400, 2500] and [450, 2400] the code keeps the lowest maximum 2400,
    so it does not return (450, 2500). -/
theorem c1_example1_false :
    find_common_range [⟨[(400, 0), (2500, 0)]⟩, ⟨[(450, 0), (2400, 0)]⟩] ≠
      some (some 450, some 2500) := by
  decide

/-- C1 amended: on records with coordinate ranges [400, 2500] and
    [450, 2400], `find_common_range` returns the pair (450, 2400). -/
theorem c1_example1_amended :
    find_common_range [⟨[(400, 0), (2500, 0)]⟩, ⟨[(450, 0), (2400, 0)]⟩] =
      some (some 450, some 2400) := by
  decide

/-- C10, as stated ("any file whose very first line passes the
    numeric-pair test"), is false: with two distinct pair lines the
    second one sets `pair_index`, and the parse then dies with an
    IndexError on the `X Units` lookup instead of returning the
    missing-pairs error. -/
theorem c10_sentinel_false :
    numericPairTest "400\t0.5" = true ∧ numericPairTest "450\t0.6" = true ∧
      file_to_data_object [("f.txt", ["400\t0.5", "450\t0.6"])] =
        BatchResult.crash := by
  decide

/-! ## Helper lemmas: sorting and truncation -/

lemma insertByKey_eq_orderedInsert (p : ℚ × ℚ) (l : List (ℚ × ℚ)) :
    insertByKey p l = List.orderedInsert (fun x y : ℚ × ℚ => x.1 ≤ y.1) p l := by
  induction l with
  | nil => rfl
  | cons q rest ih =>
    rw [insertByKey, List.orderedInsert]
    by_cases h : q.1 < p.1
    · rw [if_pos h, if_neg (not_le.mpr h), ih]
    · rw [if_neg h, if_pos (not_lt.mp h)]

lemma sortByKey_eq_insertionSort (l : List (ℚ × ℚ)) :
    sortByKey l = List.insertionSort (fun x y : ℚ × ℚ => x.1 ≤ y.1) l := by
  induction l with
  | nil => rfl
  | cons p rest ih => rw [sortByKey, List.insertionSort, ih, insertByKey_eq_orderedInsert]

lemma sortByKey_perm (l : List (ℚ × ℚ)) : (sortByKey l).Perm l := by
  rw [sortByKey_eq_insertionSort]
  exact List.perm_insertionSort _ l

lemma sortByKey_sorted (l : List (ℚ × ℚ)) :
    (sortByKey l).Pairwise (fun x y : ℚ × ℚ => x.1 ≤ y.1) := by
  rw [sortByKey_eq_insertionSort]
  haveI : IsTotal (ℚ × ℚ) (fun x y : ℚ × ℚ => x.1 ≤ y.1) :=
    ⟨fun a b => le_total a.1 b.1⟩
  haveI : IsTrans (ℚ × ℚ) (fun x y : ℚ × ℚ => x.1 ≤ y.1) :=
    ⟨fun _ _ _ hab hbc => le_trans hab hbc⟩
  exact List.sorted_insertionSort _ l

lemma monoAsc_iff_chain (l : List ℚ) :
    monoAsc l = true ↔ List.Chain' (· ≤ ·) l := by
  induction l with
  | nil => simp [monoAsc]
  | cons a t ih =>
    cases t with
    | nil => simp [monoAsc]
    | cons b t2 =>
      rw [monoAsc, Bool.and_eq_true, decide_eq_true_eq, List.chain'_cons]
      exact and_congr Iff.rfl ih

lemma monoAsc_iff_pairwise (l : List ℚ) :
    monoAsc l = true ↔ l.Pairwise (· ≤ ·) := by
  rw [monoAsc_iff_chain]
  exact List.chain'_iff_pairwise

/-- Transport key-sortedness of a pair list to its key list. -/
lemma pairwise_key_iff (l : List (ℚ × ℚ)) :
    (l.map Prod.fst).Pairwise (· ≤ ·) ↔
      l.Pairwise (fun x y : ℚ × ℚ => x.1 ≤ y.1) := by
  exact List.pairwise_map

lemma dropWhile_lt_eq_filter (mn : ℚ) (df : List (ℚ × ℚ))
    (h : df.Pairwise (fun x y : ℚ × ℚ => x.1 ≤ y.1)) :
    df.dropWhile (fun p => decide (p.1 < mn)) =
      df.filter (fun p => decide (mn ≤ p.1)) := by
  induction df with
  | nil => rfl
  | cons p t ih =>
    obtain ⟨hhead, htail⟩ := List.pairwise_cons.mp h
    by_cases hp : p.1 < mn
    · rw [List.dropWhile_cons_of_pos (by simpa using hp),
        List.filter_cons_of_neg (by simpa using not_le.mpr hp)]
      exact ih htail
    · rw [List.dropWhile_cons_of_neg (by simpa using hp),
        List.filter_cons_of_pos (by simpa using not_lt.mp hp)]
      have : t.filter (fun p => decide (mn ≤ p.1)) = t :=
        List.filter_eq_self.mpr (fun q hq => by
          simpa using le_trans (not_lt.mp hp) (hhead q hq))
      rw [this]

lemma takeWhile_le_eq_filter (mx : ℚ) (df : List (ℚ × ℚ))
    (h : df.Pairwise (fun x y : ℚ × ℚ => x.1 ≤ y.1)) :
    df.takeWhile (fun p => decide (p.1 ≤ mx)) =
      df.filter (fun p => decide (p.1 ≤ mx)) := by
  induction df with
  | nil => rfl
  | cons p t ih =>
    obtain ⟨hhead, htail⟩ := List.pairwise_cons.mp h
    by_cases hp : p.1 ≤ mx
    · rw [List.takeWhile_cons_of_pos (by simpa using hp),
        List.filter_cons_of_pos (by simpa using hp)]
      rw [ih htail]
    · rw [List.takeWhile_cons_of_neg (by simpa using hp),
        List.filter_cons_of_neg (by simpa using hp)]
      exact (List.filter_eq_nil_iff.mpr (fun q hq => by
        simp only [decide_eq_true_eq]
        exact fun hqle => hp (le_trans (hhead q hq) hqle))).symm

/-- On a key-sorted frame with `min ≤ max`, `truncate` keeps exactly the
    in-range rows, in order. -/
lemma truncateDF_eq_filter (df : List (ℚ × ℚ)) (min max : ℚ)
    (hmono : monoAsc (df.map Prod.fst) = true) (hle : min ≤ max) :
    truncateDF df min max =
      some (df.filter (fun p => decide (min ≤ p.1) && decide (p.1 ≤ max))) := by
  have hpw : df.Pairwise (fun x y : ℚ × ℚ => x.1 ≤ y.1) :=
    (pairwise_key_iff df).mp ((monoAsc_iff_pairwise _).mp hmono)
  rw [truncateDF, if_pos hmono, if_pos hle]
  rw [dropWhile_lt_eq_filter min df hpw,
    takeWhile_le_eq_filter max _ (hpw.filter _),
    List.filter_filter]
  rw [List.filter_congr (fun p _ => Bool.and_comm (decide (p.1 ≤ max)) (decide (min ≤ p.1)))]

lemma monoAsc_filter (df : List (ℚ × ℚ)) (q : ℚ × ℚ → Bool)
    (hmono : monoAsc (df.map Prod.fst) = true) :
    monoAsc ((df.filter q).map Prod.fst) = true := by
  rw [monoAsc_iff_pairwise, pairwise_key_iff]
  exact ((pairwise_key_iff df).mp ((monoAsc_iff_pairwise _).mp hmono)).filter q

lemma mapM_option_eq_map {α β : Type} (f : α → Option β) (g : α → β)
    (l : List α) (h : ∀ a ∈ l, f a = some (g a)) :
    l.mapM f = some (l.map g) := by
  induction l with
  | nil => rfl
  | cons a t ih =>
    rw [List.mapM_cons, h a (List.mem_cons_self a t),
      ih (fun a ha => h a (List.mem_cons_of_mem _ ha))]
    rfl

lemma mapM_option_eq_self {α : Type} (f : α → Option α)
    (l : List α) (h : ∀ a ∈ l, f a = some a) :
    l.mapM f = some l := by
  induction l with
  | nil => rfl
  | cons a t ih =>
    rw [List.mapM_cons, h a (List.mem_cons_self a t),
      ih (fun a ha => h a (List.mem_cons_of_mem _ ha))]
    rfl

/-! ## C6 and C7 -/

/-- C6, as stated, is false: `reindex` sorts but never removes duplicate
    coordinates, so a record with a repeated coordinate keeps repeated
    keys. -/
theorem c6_duplicates_false :
    (reindex [⟨[(400, 1), (400, 2)]⟩]).map keysOf = [[400, 400]] ∧
      ¬ ([(400 : ℚ), 400].Nodup) := by
  constructor
  · decide
  · decide

/-- C6 amended: after `reindex`, every record's series is keyed by a
    non-decreasing coordinate sequence, no coordinate or value is changed
    (the rows are a permutation of the original rows), and the keys are
    duplicate-free whenever the original coordinates were pairwise
    distinct. -/
theorem c6_reindex_amended (objs : List DataObject) (i : ℕ) (o r : DataObject)
    (ho : objs[i]? = some o) (hr : (reindex objs)[i]? = some r) :
    monoAsc (keysOf r) = true ∧ r.pairs.Perm o.pairs ∧
      ((keysOf o).Nodup → (keysOf r).Nodup) := by
  have hmap : (reindex objs)[i]? =
      (objs[i]?).map (fun d => (⟨sortByKey d.pairs⟩ : DataObject)) := by
    rw [reindex, List.getElem?_map]
  rw [hmap, ho] at hr
  have hro : r = ⟨sortByKey o.pairs⟩ := (Option.some_inj.mp hr).symm
  subst hro
  refine ⟨?_, sortByKey_perm o.pairs, ?_⟩
  · rw [keysOf, monoAsc_iff_pairwise, pairwise_key_iff]
    exact sortByKey_sorted o.pairs
  · intro hnd
    have hperm : (keysOf (⟨sortByKey o.pairs⟩ : DataObject)).Perm (keysOf o) :=
      (sortByKey_perm o.pairs).map Prod.fst
    exact (hperm.nodup_iff).mpr hnd

/-- Witness for C6 amended on an unsorted two-row record. -/
theorem c6_reindex_amended_witness :
    monoAsc (keysOf (⟨[(400, 2), (500, 1)]⟩ : DataObject)) = true ∧
      (⟨[(400, 2), (500, 1)]⟩ : DataObject).pairs.Perm
        (⟨[(500, 1), (400, 2)]⟩ : DataObject).pairs ∧
      ((keysOf (⟨[(500, 1), (400, 2)]⟩ : DataObject)).Nodup →
        (keysOf (⟨[(400, 2), (500, 1)]⟩ : DataObject)).Nodup) :=
  c6_reindex_amended [⟨[(500, 1), (400, 2)]⟩] 0 ⟨[(500, 1), (400, 2)]⟩
    ⟨[(400, 2), (500, 1)]⟩ (by decide) (by decide)

/-- C7: on ascending-sorted records and a range with min ≤ max,
    `truncate` keeps for each record exactly the in-range rows in order,
    and doing it again with the same bounds changes nothing. -/
theorem c7_truncate_spec (objs : List DataObject) (min max : ℚ)
    (hs : ∀ d ∈ objs, monoAsc (keysOf d) = true) (hle : min ≤ max) :
    ∃ res, truncate objs min max = some res ∧
      res = objs.map (fun d =>
        ⟨d.pairs.filter (fun p => decide (min ≤ p.1) && decide (p.1 ≤ max))⟩) ∧
      truncate res min max = some res := by
  refine ⟨objs.map (fun d =>
    ⟨d.pairs.filter (fun p => decide (min ≤ p.1) && decide (p.1 ≤ max))⟩),
    ?_, rfl, ?_⟩
  · rw [truncate]
    exact mapM_option_eq_map _ _ objs (fun d hd => by
      rw [truncateDF_eq_filter d.pairs min max (hs d hd) hle]
      rfl)
  · rw [truncate]
    apply mapM_option_eq_self
    intro a ha
    obtain ⟨d, hd, rfl⟩ := List.mem_map.mp ha
    show Option.map (fun t => (⟨t⟩ : DataObject))
        (truncateDF (d.pairs.filter
          (fun p => decide (min ≤ p.1) && decide (p.1 ≤ max))) min max)
      = some ⟨d.pairs.filter (fun p => decide (min ≤ p.1) && decide (p.1 ≤ max))⟩
    rw [truncateDF_eq_filter _ min max
      (monoAsc_filter d.pairs _ (hs d hd)) hle]
    have hself : (d.pairs.filter
          (fun p => decide (min ≤ p.1) && decide (p.1 ≤ max))).filter
          (fun p => decide (min ≤ p.1) && decide (p.1 ≤ max))
        = d.pairs.filter (fun p => decide (min ≤ p.1) && decide (p.1 ≤ max)) := by
      apply List.filter_eq_self.mpr
      intro q hq
      exact (List.mem_filter.mp hq).2
    rw [hself]
    rfl

/-- Witness for C7 on a three-row record truncated to [2, 3]. -/
theorem c7_truncate_spec_witness :
    ∃ res, truncate [(⟨[(1, 10), (2, 20), (3, 30)]⟩ : DataObject)] 2 3 = some res ∧
      res = [(⟨[(1, 10), (2, 20), (3, 30)]⟩ : DataObject)].map (fun d =>
        ⟨d.pairs.filter (fun p => decide ((2 : ℚ) ≤ p.1) && decide (p.1 ≤ (3 : ℚ)))⟩) ∧
      truncate res 2 3 = some res :=
  c7_truncate_spec [⟨[(1, 10), (2, 20), (3, 30)]⟩] 2 3 (by decide) (by decide)

/-! ## Helper lemmas: the scanning loop of the parser -/

/-- A row of the column whose descriptor is `some s` guarantees that the
    `.index[0]` lookup for `s` succeeds. -/
lemma idxOf_isSome_of_mem {rows : List Row} {r : Row} {s : String}
    (hr : r ∈ rows) (hs : r.descriptor = some s) :
    ∃ j, idxOfDescriptor rows s = some j := by
  cases h : idxOfDescriptor rows s with
  | some j => exact ⟨j, rfl⟩
  | none =>
    exfalso
    have := List.findIdx?_eq_none_iff.mp h r hr
    rw [hs] at this
    simp at this

/-- Scanning rows none of which is a pair candidate (and whose
    `Description` mentions are backed by an exact `Description` row)
    leaves the pair list empty and `pair_index` at 0. -/
lemma scanGo_no_candidates (rows : List Row) (remaining : List Row)
    (hrow : ∀ r ∈ remaining, ∃ s, r.descriptor = some s ∧
      isPairCandidate s = false ∧
      (strHasSub s "Description" = true →
        ∃ d, idxOfDescriptor rows "Description" = some d)) :
    ∀ di, ∃ di', scanGo rows remaining [] 0 di = .done [] 0 di' := by
  induction remaining with
  | nil => exact fun di => ⟨di, rfl⟩
  | cons r rest ih =>
    intro di
    obtain ⟨s, hs, hcand, hdesc⟩ := hrow r (List.mem_cons_self r rest)
    have ihrest := ih (fun r' hr' => hrow r' (List.mem_cons_of_mem r hr'))
    by_cases hdm : strHasSub s "Description" = true
    · obtain ⟨d, hd⟩ := hdesc hdm
      obtain ⟨di', hrec⟩ := ihrest d
      refine ⟨di', ?_⟩
      rw [scanGo]
      simp only [hs, hcand, hdm, hd]
      exact hrec
    · obtain ⟨di', hrec⟩ := ihrest di
      refine ⟨di', ?_⟩
      rw [scanGo]
      simp only [hs, hcand, hdm]
      simp only [Bool.false_eq_true, if_false]
      exact hrec

/-- Scanning well-formed rows followed by a malformed pair candidate
    returns the malformed-pair result for that candidate, whatever the
    running state. -/
lemma scanGo_malformed (rows : List Row) (bad : Row) (post : List Row)
    (b : String) (hb : bad.descriptor = some b)
    (hcand : isPairCandidate b = true)
    (hbad : (splitChar '\t' b).all isFloat = false) :
    ∀ pre : List Row,
      (∀ r ∈ pre, ∃ s, r.descriptor = some s ∧
        (isPairCandidate s = true →
          (splitChar '\t' s).all isFloat = true ∧
            ∃ j, idxOfDescriptor rows s = some j) ∧
        (strHasSub s "Description" = true →
          ∃ d, idxOfDescriptor rows "Description" = some d)) →
      ∀ pairs pair_index di,
        scanGo rows (pre ++ bad :: post) pairs pair_index di = .malformed b := by
  intro pre
  induction pre with
  | nil =>
    intro _ pairs pair_index di
    rw [List.nil_append, scanGo]
    simp only [hb, hcand, hbad]
    simp
  | cons r rest ih =>
    intro hpre pairs pair_index di
    obtain ⟨s, hs, hcandcase, hdesccase⟩ := hpre r (List.mem_cons_self r rest)
    have ihrest := ih (fun r' hr' => hpre r' (List.mem_cons_of_mem r hr'))
    rw [List.cons_append, scanGo]
    by_cases hc : isPairCandidate s = true
    · obtain ⟨hfl, j, hj⟩ := hcandcase hc
      simp only [hs, hc, hfl, hj]
      simp only [if_true]
      exact ihrest _ _ _
    · by_cases hdm : strHasSub s "Description" = true
      · obtain ⟨d, hd⟩ := hdesccase hdm
        simp only [hs, hc, hdm, hd]
        simp only [Bool.false_eq_true, if_false, if_true]
        exact ihrest _ _ _
      · simp only [hs, hc, hdm]
        simp only [Bool.false_eq_true, if_false]
        exact ihrest _ _ _

/-- C8, as stated, is false on files where an earlier line mentions
    "Description" without any row labelled exactly `Description`: the
    scan then dies with an IndexError before reaching the malformed pair
    line, so no error result (and no message) is returned at all. -/
theorem c8_malformed_crash_false :
    isPairCandidate "1.2\tabc" = true ∧
      (((splitChar '\t' "1.2\tabc").all isFloat) = false) ∧
      file_to_data_object [("f.txt", ["my Description here", "1.2\tabc"])] =
        BatchResult.crash := by
  refine ⟨by decide, by decide, ?_⟩
  decide

/-- C8 amended: for every input file containing a candidate numeric-pair
    line (exactly one tab, two ASCII tokens) with a token `float()`
    rejects, provided the earlier lines read cleanly (non-empty first
    field, any pair candidate among them fully numeric, any "Description"
    mention backed by an exactly-labelled row), parsing fails with the
    message exactly "<path> contains an invalid or missing value at
    numerical pair: <raw line>" naming the file and the first such raw
    line, and the returned collection is empty.  The all-ASCII hypothesis
    on the offending line delimits where `isFloat` coincides with
    `float()` (Python additionally accepts non-ASCII digits, on which
    rejection cannot be concluded); `isFloat = true` implies an
    ASCII-only token, so no such hypothesis is needed on the earlier
    lines. -/
theorem c8_malformed_amended (path : String) (lines : List String)
    (rows pre post : List Row) (bad : Row) (b : String)
    (hrows : readCsv lines = some rows)
    (hsplit : rows = pre ++ bad :: post)
    (hb : bad.descriptor = some b)
    (hbascii : b.toList.all (fun c => c.toNat < 128) = true)
    (hcand : isPairCandidate b = true)
    (hbad : (splitChar '\t' b).all isFloat = false)
    (hpre : ∀ r ∈ pre, ∃ s, r.descriptor = some s ∧
      (isPairCandidate s = true → (splitChar '\t' s).all isFloat = true) ∧
      (strHasSub s "Description" = true →
        ∃ d, idxOfDescriptor rows "Description" = some d)) :
    file_to_data_object [(path, lines)] =
      BatchResult.err (malformedMsg path b) := by
  have hpre' : ∀ r ∈ pre, ∃ s, r.descriptor = some s ∧
      (isPairCandidate s = true →
        (splitChar '\t' s).all isFloat = true ∧
          ∃ j, idxOfDescriptor rows s = some j) ∧
      (strHasSub s "Description" = true →
        ∃ d, idxOfDescriptor rows "Description" = some d) := by
    intro r hr
    obtain ⟨s, hs, hflc, hdc⟩ := hpre r hr
    refine ⟨s, hs, fun hc => ⟨hflc hc, ?_⟩, hdc⟩
    exact idxOf_isSome_of_mem (by rw [hsplit]; exact List.mem_append_left _ hr) hs
  have hscan : scanRows rows = .malformed b := by
    rw [scanRows, hsplit]
    have := scanGo_malformed rows bad post b hb hcand hbad pre hpre' [] 0 0
    rw [hsplit] at this
    exact this
  have hparse : parseRows path rows = .err (malformedMsg path b) := by
    rw [parseRows, hscan]
  have hfile : parseFile path lines = .err (malformedMsg path b) := by
    rw [parseFile, hrows]
    exact hparse
  rw [file_to_data_object, fileLoop, hfile]

/-- Witness for C8 amended: the file of Example 3, a unit line followed
    by the pair line "1.2 TAB abc". -/
theorem c8_malformed_amended_witness :
    file_to_data_object [("f.txt", ["X Units:wl", "1.2\tabc"])] =
      BatchResult.err (malformedMsg "f.txt" "1.2\tabc") :=
  c8_malformed_amended "f.txt" ["X Units:wl", "1.2\tabc"]
    [⟨some "X Units", some "wl", none, none, none⟩,
     ⟨some "1.2\tabc", none, none, none, none⟩]
    [⟨some "X Units", some "wl", none, none, none⟩]
    []
    ⟨some "1.2\tabc", none, none, none, none⟩
    "1.2\tabc"
    (by decide) (by decide) rfl (by decide) (by decide) (by decide)
    (by
      intro r hr
      rcases List.mem_cons.mp hr with rfl | hr
      · exact ⟨"X Units", rfl, fun h => absurd h (by decide),
          fun h => absurd h (by decide)⟩
      · exact absurd hr (List.not_mem_nil r))

/-- If a row labelled exactly `Description` exists (at first position
    `d`), every completed scan ends with `desc_index = d`: every
    assignment in the loop writes the same first-occurrence index, and
    the exact row itself triggers one. -/
lemma scanGo_desc (rows : List Row) (d : ℕ)
    (hd : idxOfDescriptor rows "Description" = some d) :
    ∀ remaining pairs pair_index di,
      (di = d ∨ ∃ r ∈ remaining, r.descriptor = some "Description") →
      ∀ pairs' pi' di',
        scanGo rows remaining pairs pair_index di = .done pairs' pi' di' →
        di' = d := by
  intro remaining
  induction remaining with
  | nil =>
    intro pairs pair_index di hinv pairs' pi' di' hscan
    rw [scanGo] at hscan
    cases hscan
    rcases hinv with h | ⟨r, hr, _⟩
    · exact h
    · exact absurd hr (List.not_mem_nil r)
  | cons r rest ih =>
    intro pairs pair_index di hinv pairs' pi' di' hscan
    rw [scanGo] at hscan
    cases hdesc : r.descriptor with
    | none =>
      rw [hdesc] at hscan
      exact absurd hscan (by simp)
    | some s =>
      rw [hdesc] at hscan
      simp only [] at hscan
      by_cases hc : isPairCandidate s = true
      · rw [if_pos hc] at hscan
        by_cases hf : (splitChar '\t' s).all isFloat = true
        · rw [if_pos hf] at hscan
          cases hidx : idxOfDescriptor rows s with
          | none =>
            rw [hidx] at hscan
            exact absurd hscan (by simp)
          | some j =>
            rw [hidx] at hscan
            refine ih _ _ _ ?_ _ _ _ hscan
            rcases hinv with h | ⟨r', hr', hr'd⟩
            · exact Or.inl h
            · rcases List.mem_cons.mp hr' with rfl | hr'
              · rw [hdesc] at hr'd
                have hsD : s = "Description" := Option.some_inj.mp hr'd
                subst hsD
                exact absurd hc (by decide)
              · exact Or.inr ⟨r', hr', hr'd⟩
        · rw [if_neg hf] at hscan
          exact absurd hscan (by simp)
      · rw [if_neg hc] at hscan
        by_cases hdm : strHasSub s "Description" = true
        · rw [if_pos hdm, hd] at hscan
          exact ih _ _ _ (Or.inl rfl) _ _ _ hscan
        · rw [if_neg hdm] at hscan
          refine ih _ _ _ ?_ _ _ _ hscan
          rcases hinv with h | ⟨r', hr', hr'd⟩
          · exact Or.inl h
          · rcases List.mem_cons.mp hr' with rfl | hr'
            · rw [hdesc] at hr'd
              have hsD : s = "Description" := Option.some_inj.mp hr'd
              subst hsD
              exact absurd (by decide : strHasSub "Description" "Description" = true) hdm
            · exact Or.inr ⟨r', hr', hr'd⟩

lemma dropnaCols_length (head : List Row) :
    (dropnaCols head).length = head.length := by
  rw [dropnaCols]
  split <;> rw [List.length_map]

/-- C4, as stated, is false: `desc_index` starts at 0, so in a file with
    no row labelled exactly `Description` the overflow merge is applied
    to row 0 whatever its label — here the `Name` row's value "a" becomes
    "a: b". -/
theorem c4_merge_nondesc_false :
    idxOfDescriptor
        [⟨some "Name", some "a", some "b", none, none⟩,
         ⟨some "X Units", some "wl", none, none, none⟩,
         ⟨some "Y Units", some "r", none, none, none⟩,
         ⟨some "400\t0.5", none, none, none, none⟩] "Description" = none ∧
      file_to_data_object
          [("f.txt", ["Name:a:b", "X Units:wl", "Y Units:r", "400\t0.5"])] =
        BatchResult.ok
          [⟨[(some "Name", some "a: b"), (some "X Units", some "wl"),
             (some "Y Units", some "r")], some "wl", some "r",
            [["400", "0.5"]], "f.txt"⟩] := by
  constructor
  · decide
  · decide

/-- C4 amended: for every input file that parses successfully and whose
    rows include one labelled exactly `Description` (first at position
    d), only that row undergoes overflow merging, top to bottom: when its
    first extra field is absent no cell is merged (the program then runs
    `dropna(axis=1)` over the head frame, so every value string is kept
    unless some descriptive line lacks a colon, in which case the whole
    value column is dropped — `dropnaCols`); otherwise ": " + extra1 is
    appended, then ": " + extra2 if the second extra is present, then
    ": " + extra3 if the third is, and every other row's descriptor and
    value cells are carried over unchanged.  (The Olivine example of the
    claim is the witness.) -/
theorem c4_merge_amended (path : String) (rows : List Row)
    (rec : ParsedRecord) (d : ℕ)
    (hok : parseRows path rows = ParseOutcome.ok rec)
    (hd : idxOfDescriptor rows "Description" = some d) :
    ∃ row, rows[d]? = some row ∧
      ((row.overflow = none ∧
        rec.descriptive = dropnaCols (rows.take rec.descriptive.length)) ∨
       (∃ o1 mv, row.overflow = some o1 ∧
        mergeOverflow row.value o1 row.overflow2 row.overflow3 = some mv ∧
        rec.descriptive[d]? = some (row.descriptor, some mv) ∧
        (∀ i, i ≠ d → i < rec.descriptive.length →
          rec.descriptive[i]? = (rows.map toPair)[i]?))) := by
  rw [parseRows] at hok
  cases hscan : scanRows rows with
  | malformed v => rw [hscan] at hok; exact absurd hok (by simp)
  | crash => rw [hscan] at hok; exact absurd hok (by simp)
  | done pairs pi di =>
    rw [hscan] at hok
    simp only [] at hok
    have hdi : di = d := by
      have hmem : ∃ r ∈ rows, r.descriptor = some "Description" := by
        obtain ⟨hlt, hp, -⟩ := List.findIdx?_eq_some_iff_getElem.mp hd
        refine ⟨rows[d], List.getElem_mem hlt, ?_⟩
        simpa using hp
      exact scanGo_desc rows d hd rows [] 0 0 (Or.inr hmem) pairs pi di hscan
    rw [hdi] at hok
    unfold buildRecord at hok
    by_cases hpi : pi ≠ 0
    · rw [if_pos hpi] at hok
      simp only [] at hok
      cases hxi : idxOfDescriptor rows "X Units" with
      | none => rw [hxi] at hok; exact absurd hok (by simp)
      | some xi =>
        rw [hxi] at hok
        simp only [] at hok
        cases hyi : idxOfDescriptor rows "Y Units" with
        | none => rw [hyi] at hok; exact absurd hok (by simp)
        | some yi =>
          rw [hyi] at hok
          simp only [] at hok
          cases hxrow : (rows.take pi)[xi]? with
          | none => rw [hxrow] at hok; exact absurd hok (by simp)
          | some xrow =>
            rw [hxrow] at hok
            simp only [] at hok
            cases hyrow : (rows.take pi)[yi]? with
            | none => rw [hyrow] at hok; exact absurd hok (by simp)
            | some yrow =>
              rw [hyrow] at hok
              simp only [] at hok
              cases hdrow : (rows.take pi)[d]? with
              | none => rw [hdrow] at hok; exact absurd hok (by simp)
              | some drow =>
                rw [hdrow] at hok
                simp only [] at hok
                have hdlt : d < (rows.take pi).length :=
                  (List.getElem?_eq_some_iff.mp hdrow).1
                have hdpi : d < pi :=
                  lt_of_lt_of_le hdlt
                    (by rw [List.length_take]; exact min_le_left _ _)
                have hrowsd : rows[d]? = some drow := by
                  rw [List.getElem?_take, if_pos hdpi] at hdrow
                  exact hdrow
                cases hov : drow.overflow with
                | none =>
                  rw [hov] at hok
                  simp only [] at hok
                  have hrec : rec = ⟨dropnaCols (rows.take pi),
                      xrow.value, yrow.value, pairs, path⟩ := by
                    have := hok
                    injection this with h
                    exact h.symm
                  subst hrec
                  refine ⟨drow, hrowsd, Or.inl ⟨hov, ?_⟩⟩
                  show dropnaCols (rows.take pi) =
                    dropnaCols (rows.take (dropnaCols (rows.take pi)).length)
                  have htake : rows.take (min pi rows.length) = rows.take pi := by
                    rcases le_total pi rows.length with h | h
                    · rw [min_eq_left h]
                    · rw [min_eq_right h, List.take_length,
                        List.take_of_length_le h]
                  rw [dropnaCols_length, List.length_take, htake]
                | some o1 =>
                  rw [hov] at hok
                  simp only [] at hok
                  cases hmv : mergeOverflow drow.value o1 drow.overflow2
                      drow.overflow3 with
                  | none => rw [hmv] at hok; exact absurd hok (by simp)
                  | some mv =>
                    rw [hmv] at hok
                    simp only [] at hok
                    have hrec :
                        rec = ⟨((rows.take pi).map toPair).set d
                            (drow.descriptor, some mv),
                          xrow.value, yrow.value, pairs, path⟩ := by
                      have := hok
                      injection this with h
                      exact h.symm
                    subst hrec
                    refine ⟨drow, hrowsd, Or.inr ⟨o1, mv, hov, hmv, ?_, ?_⟩⟩
                    · show (((rows.take pi).map toPair).set d
                          (drow.descriptor, some mv))[d]? = _
                      rw [List.getElem?_set, if_pos rfl]
                      rw [if_pos (by rw [List.length_map]; exact hdlt)]
                    · intro i hne hi
                      have hipi : i < pi := by
                        have : i < (((rows.take pi).map toPair).set d
                            (drow.descriptor, some mv)).length := hi
                        rw [List.length_set, List.length_map,
                          List.length_take] at this
                        exact lt_of_lt_of_le this (min_le_left _ _)
                      show (((rows.take pi).map toPair).set d
                          (drow.descriptor, some mv))[i]? = _
                      rw [List.getElem?_set, if_neg (fun h => hne h.symm),
                        List.getElem?_map, List.getElem?_take, if_pos hipi,
                        List.getElem?_map]
    · rw [if_neg hpi] at hok
      exact absurd hok (by simp)

/-- Witness for C4 amended on the Olivine file of Example 2: row 2 is the
    Description row and merges to "Olivine: Fe-rich: lab sample"; rows 0
    and 1 are carried over unchanged. -/
theorem c4_merge_amended_witness :
    ∃ row,
      (([⟨some "X Units", some "wl", none, none, none⟩,
         ⟨some "Y Units", some "r", none, none, none⟩,
         ⟨some "Description", some "Olivine", some "Fe-rich", some "lab sample", none⟩,
         ⟨some "400\t0.5", none, none, none, none⟩] : List Row))[2]? = some row ∧
      ((row.overflow = none ∧
        ([((some "X Units" : Option String), (some "wl" : Option String)),
          (some "Y Units", some "r"),
          (some "Description", some "Olivine: Fe-rich: lab sample")] :
            List (Option String × Option String)) =
          dropnaCols (([⟨some "X Units", some "wl", none, none, none⟩,
            ⟨some "Y Units", some "r", none, none, none⟩,
            ⟨some "Description", some "Olivine", some "Fe-rich", some "lab sample", none⟩,
            ⟨some "400\t0.5", none, none, none, none⟩] : List Row).take
            ([((some "X Units" : Option String), (some "wl" : Option String)),
              (some "Y Units", some "r"),
              (some "Description", some "Olivine: Fe-rich: lab sample")] :
                List (Option String × Option String)).length)) ∨
       (∃ o1 mv, row.overflow = some o1 ∧
        mergeOverflow row.value o1 row.overflow2 row.overflow3 = some mv ∧
        ([((some "X Units" : Option String), (some "wl" : Option String)),
          (some "Y Units", some "r"),
          (some "Description", some "Olivine: Fe-rich: lab sample")] :
            List (Option String × Option String))[2]? = some (row.descriptor, some mv) ∧
        (∀ i, i ≠ 2 →
          i < ([((some "X Units" : Option String), (some "wl" : Option String)),
            (some "Y Units", some "r"),
            (some "Description", some "Olivine: Fe-rich: lab sample")] :
              List (Option String × Option String)).length →
          ([((some "X Units" : Option String), (some "wl" : Option String)),
            (some "Y Units", some "r"),
            (some "Description", some "Olivine: Fe-rich: lab sample")] :
              List (Option String × Option String))[i]? =
            (([⟨some "X Units", some "wl", none, none, none⟩,
               ⟨some "Y Units", some "r", none, none, none⟩,
               ⟨some "Description", some "Olivine", some "Fe-rich", some "lab sample", none⟩,
               ⟨some "400\t0.5", none, none, none, none⟩] : List Row).map toPair)[i]?))) := by
  have h := c4_merge_amended "f.txt"
    [⟨some "X Units", some "wl", none, none, none⟩,
     ⟨some "Y Units", some "r", none, none, none⟩,
     ⟨some "Description", some "Olivine", some "Fe-rich", some "lab sample", none⟩,
     ⟨some "400\t0.5", none, none, none, none⟩]
    ⟨[(some "X Units", some "wl"), (some "Y Units", some "r"),
      (some "Description", some "Olivine: Fe-rich: lab sample")],
     some "wl", some "r", [["400", "0.5"]], "f.txt"⟩
    2 (by decide) (by decide)
  exact h

/-- C3, as stated, is false: the message of the code reads "could not
    found", not "could not be found".  On a file with no tab line the
    parser returns the missing-pairs error with the former wording. -/
theorem c3_missing_msg_false :
    file_to_data_object [("f.txt", ["Name:a", "X Units:wl"])] =
        BatchResult.err (missingMsg "f.txt") ∧
      missingMsg "f.txt" ≠
        "Numerical coordinate pairs could not be found for f.txt" := by
  constructor
  · decide
  · decide

/-- C3 amended: for every input file none of whose lines contains exactly
    one tab separating two tokens (so in particular no line passes the
    numeric-pair test), provided the lines read into rows without a
    ParserError, every line has a non-empty first field, and every line
    mentioning "Description" is backed by a row labelled exactly
    "Description" (otherwise the scan raises before reaching its end),
    the parser fails with the missing-data error naming the file, whose
    message is exactly "Numerical coordinate pairs could not found for
    <path>" — the wording of the code, without "be". -/
theorem c3_missing_data_amended (path : String) (lines : List String)
    (rows : List Row) (hrows : readCsv lines = some rows)
    (hrow : ∀ r ∈ rows, ∃ s, r.descriptor = some s ∧
      isPairCandidate s = false ∧
      (strHasSub s "Description" = true →
        ∃ d, idxOfDescriptor rows "Description" = some d)) :
    file_to_data_object [(path, lines)] =
      BatchResult.err (missingMsg path) := by
  obtain ⟨di', hscan⟩ := scanGo_no_candidates rows rows hrow 0
  have hparse : parseRows path rows = .err (missingMsg path) := by
    rw [parseRows, scanRows, hscan]
    rfl
  have hfile : parseFile path lines = .err (missingMsg path) := by
    rw [parseFile, hrows]
    exact hparse
  rw [file_to_data_object, fileLoop, hfile]

/-- Witness for C3 amended on a two-line descriptive-only file. -/
theorem c3_missing_data_amended_witness :
    file_to_data_object [("f.txt", ["Name:a", "X Units:wl"])] =
      BatchResult.err (missingMsg "f.txt") :=
  c3_missing_data_amended "f.txt" ["Name:a", "X Units:wl"]
    [⟨some "Name", some "a", none, none, none⟩,
     ⟨some "X Units", some "wl", none, none, none⟩]
    (by decide)
    (by
      intro r hr
      rcases List.mem_cons.mp hr with rfl | hr
      · exact ⟨"Name", rfl, by decide, fun h => absurd h (by decide)⟩
      rcases List.mem_cons.mp hr with rfl | hr
      · exact ⟨"X Units", rfl, by decide, fun h => absurd h (by decide)⟩
      · exact absurd hr (List.not_mem_nil r))

/-! ## C5 and C9 -/

/-- The left join fixes the key sequence: whatever the frame holds, the
    result carries exactly the reference keys in the reference order. -/
lemma leftAlign_keys (ref : List (ℚ × ℚ)) (df : List (ℚ × Option ℚ)) :
    (leftAlign ref df).map Prod.fst = ref.map Prod.fst := by
  rw [leftAlign, List.map_map]
  rfl

/-- C5: after `align`, every record in the collection (the reference
    record included) carries exactly the coordinate sequence — same keys,
    same order — that the reference record had when `align` was called.
    The hypotheses delimit the runs on which pandas `align` returns at
    all: an in-range reference position and duplicate-free indexes. -/
theorem c5_align_keys (objs : List DataObject) (align_to : ℕ)
    (h : align_to < objs.length)
    (hnd : ∀ d ∈ objs, (keysOf d).Nodup) :
    ∀ i, i < (align objs align_to).length →
      ((align objs align_to)[i]?.map (fun a => a.pairs.map Prod.fst)) =
        (objs[align_to]?.map keysOf) := by
  intro i hi
  have hi' : i < objs.length := by simpa [align] using hi
  have e1 : (align objs align_to)[i]? =
      some ⟨leftAlign (objs.getD align_to ⟨[]⟩).pairs
        (interpolateBoth (outerAlign (objs.getD align_to ⟨[]⟩).pairs
          (objs[i]).pairs))⟩ := by
    rw [align, List.getElem?_map, List.getElem?_eq_getElem hi', Option.map_some']
  have hgetD : objs.getD align_to ⟨[]⟩ = objs[align_to] := by
    rw [List.getD_eq_getElem?_getD, List.getElem?_eq_getElem h]
    rfl
  rw [e1, List.getElem?_eq_getElem h, Option.map_some', Option.map_some']
  congr 1
  show (leftAlign (objs.getD align_to ⟨[]⟩).pairs
    (interpolateBoth (outerAlign (objs.getD align_to ⟨[]⟩).pairs
      (objs[i]).pairs))).map Prod.fst = _
  rw [leftAlign_keys, hgetD]
  rfl

/-- Witness for C5: a two-record collection aligned to record 0, looking
    at the non-reference record (index 1). -/
theorem c5_align_keys_witness :
    ((align [(⟨[(1, 10), (3, 30)]⟩ : DataObject), ⟨[(2, 5)]⟩] 0)[1]?.map
        (fun a => a.pairs.map Prod.fst)) =
      (([(⟨[(1, 10), (3, 30)]⟩ : DataObject), ⟨[(2, 5)]⟩])[0]?.map keysOf) :=
  c5_align_keys [⟨[(1, 10), (3, 30)]⟩, ⟨[(2, 5)]⟩] 0 (by decide) (by decide)
    1 (by decide)

/-- C9, as stated, is false of the double-precision program: on a record
    with values {0, 49}, `MinMaxScaler` computes `scale_ = fl(1/49)` and
    maps the maximum 49 to `fl(49 * fl(1/49))` = (2^53 - 1) * 2^(-53)
    = 0.9999999999999999, not exactly 1.  The first conjunct runs the
    binary64 model; the second states that the value produced at the
    maximum differs from 1. -/
theorem c9_float_exactness_false :
    linear_normalize_float [⟨[(0, ⟨0, 0⟩), (1, ⟨49, 0⟩)]⟩] =
        [⟨[(0, ⟨0, 0⟩), (1, ⟨9007199254740991, -53⟩)]⟩] ∧
      f64Val ⟨9007199254740991, -53⟩ ≠ 1 := by
  constructor
  · decide
  · norm_num [f64Val]

/-- C9 amended: `linear_normalize` rescales each record's value column
    independently with that record's own minimum and maximum — not a
    global min-max — and, reading the computation `v * scale_ + min_`
    with `scale_ = 1/(max - min)` in exact arithmetic, every value v
    becomes (v - min) / (max - min), so the record's minimum lands
    exactly on 0 and its maximum exactly on 1.  Under the program's
    double-precision evaluation the maximum's image can fall one ulp
    short of 1 (see the counterexample); the exactness part of the claim
    holds only of this exact-arithmetic reading. -/
theorem c9_linear_normalize_spec (objs : List DataObject) (i : ℕ)
    (o : DataObject) (ho : objs[i]? = some o)
    (hd : ∃ a ∈ o.pairs.map Prod.snd, ∃ b ∈ o.pairs.map Prod.snd, a ≠ b) :
    ∃ mn mx : ℚ,
      keyMin (o.pairs.map Prod.snd) = some mn ∧
      keyMax (o.pairs.map Prod.snd) = some mx ∧ mn < mx ∧
      (linear_normalize objs)[i]? =
        some ⟨o.pairs.map (fun p => (p.1, (p.2 - mn) / (mx - mn)))⟩ ∧
      (∀ p ∈ o.pairs, p.2 = mn → (p.2 - mn) / (mx - mn) = 0) ∧
      (∀ p ∈ o.pairs, p.2 = mx → (p.2 - mn) / (mx - mn) = 1) := by
  obtain ⟨a, haMem, b, hbMem, hab⟩ := hd
  have hne : o.pairs.map Prod.snd ≠ [] := List.ne_nil_of_mem haMem
  obtain ⟨mn, hmn, _, hmnLe⟩ := keyMin_spec hne
  obtain ⟨mx, hmx, _, hmxGe⟩ := keyMax_spec hne
  have hlt : mn < mx := by
    rcases lt_or_gt_of_ne hab with h' | h'
    · exact lt_of_le_of_lt (hmnLe a haMem) (lt_of_lt_of_le h' (hmxGe b hbMem))
    · exact lt_of_le_of_lt (hmnLe b hbMem) (lt_of_lt_of_le h' (hmxGe a haMem))
  have hsub : mx - mn ≠ 0 := sub_ne_zero.mpr (ne_of_gt hlt)
  refine ⟨mn, mx, hmn, hmx, hlt, ?_, ?_, ?_⟩
  · rw [linear_normalize, List.getElem?_map, ho, Option.map_some']
    congr 1
    simp only [hmn, hmx]
    rw [if_neg hsub]
    congr 1
    apply List.map_congr_left
    intro p _
    have : p.2 * (1 / (mx - mn)) + (0 - mn * (1 / (mx - mn))) =
        (p.2 - mn) / (mx - mn) := by
      field_simp
      ring
    rw [this]
  · intro p _ hp
    rw [hp, sub_self, zero_div]
  · intro p _ hp
    rw [hp]
    exact div_self hsub

/-- Witness for C9 on a record with values 2, 6, 4. -/
theorem c9_linear_normalize_spec_witness :
    ∃ mn mx : ℚ,
      keyMin ((⟨[(400, 2), (500, 6), (600, 4)]⟩ : DataObject).pairs.map Prod.snd) = some mn ∧
      keyMax ((⟨[(400, 2), (500, 6), (600, 4)]⟩ : DataObject).pairs.map Prod.snd) = some mx ∧
      mn < mx ∧
      (linear_normalize [(⟨[(400, 2), (500, 6), (600, 4)]⟩ : DataObject)])[0]? =
        some ⟨(⟨[(400, 2), (500, 6), (600, 4)]⟩ : DataObject).pairs.map
          (fun p => (p.1, (p.2 - mn) / (mx - mn)))⟩ ∧
      (∀ p ∈ (⟨[(400, 2), (500, 6), (600, 4)]⟩ : DataObject).pairs,
        p.2 = mn → (p.2 - mn) / (mx - mn) = 0) ∧
      (∀ p ∈ (⟨[(400, 2), (500, 6), (600, 4)]⟩ : DataObject).pairs,
        p.2 = mx → (p.2 - mn) / (mx - mn) = 1) :=
  c9_linear_normalize_spec [⟨[(400, 2), (500, 6), (600, 4)]⟩] 0
    ⟨[(400, 2), (500, 6), (600, 4)]⟩ (by decide)
    ⟨2, by decide, 6, by decide, by decide⟩

/-- C10 amended: some file containing a valid numeric-pair line — e.g.
    one whose single line is a pair line at row index 0 — is rejected
    with the missing-pairs error and the empty collection, because row
    index 0 doubles as the "not found yet" sentinel of `pair_index`. -/
theorem c10_sentinel_amended :
    numericPairTest "400\t0.5" = true ∧
      file_to_data_object [("f.txt", ["400\t0.5"])] =
        BatchResult.err (missingMsg "f.txt") := by
  decide

end SpACE
